import Mathlib

/-!
Verification of the chunked byte-pattern scanner in `src/main.go`.

Modelling conventions:
* bytes are `Nat` values (`< 256` where it matters), byte slices are `List Nat`;
* Go strings are `List Char`;
* fallible operations return `Option` (`none` = the Go function returned an error).
-/

/-- `findPattern` (src/main.go lines 14-26): brute-force scan collecting every
start index `i` with `0 ≤ i ≤ len(data) - len(pattern)` (int64 arithmetic, so
the loop body never runs when the pattern is longer than the data) such that
`data[i : i+len(pattern)]` equals `pattern` byte for byte. -/
def findPattern (data pattern : List Nat) : List Nat :=
  (List.range (data.length + 1 - pattern.length)).filter
    (fun i => decide ((data.drop i).take pattern.length = pattern))

/-- Value of one hex digit, as in Go `encoding/hex.fromHexChar`:
`'0'..'9'`, `'a'..'f'`, `'A'..'F'` (codes 48-57, 97-102, 65-70). -/
def hexDigitVal (c : Char) : Option Nat :=
  if 48 ≤ c.toNat ∧ c.toNat ≤ 57 then some (c.toNat - 48)
  else if 97 ≤ c.toNat ∧ c.toNat ≤ 102 then some (c.toNat - 87)
  else if 65 ≤ c.toNat ∧ c.toNat ≤ 70 then some (c.toNat - 55)
  else none

/-- Go `hex.DecodeString`: consumes the characters two at a time; fails on a
non-hex character or an odd-length input.  `parsePattern` only tests whether
the returned error is nil, so `Option` suffices. -/
def decodeHex : List Char → Option (List Nat)
  | [] => some []
  | [_] => none
  | c1 :: c2 :: rest =>
    match hexDigitVal c1 with
    | none => none
    | some hi =>
      match hexDigitVal c2 with
      | none => none
      | some lo =>
        match decodeHex rest with
        | none => none
        | some bs => some ((16 * hi + lo) :: bs)

/-- Go `unicode.IsSpace` restricted to the Latin-1 range (all whitespace that
can appear in the inputs considered here): space, `\t`, `\n`, `\v`, `\f`,
`\r`, NEL (U+0085) and NBSP (U+00A0). -/
def goIsSpace (c : Char) : Bool :=
  decide (c.toNat = 32 ∨ c.toNat = 9 ∨ c.toNat = 10 ∨ c.toNat = 11 ∨
          c.toNat = 12 ∨ c.toNat = 13 ∨ c.toNat = 133 ∨ c.toNat = 160)

/-- Accumulator-based splitter implementing Go `strings.Fields`: maximal runs
of non-whitespace characters, in order; whitespace runs separate fields and
produce no empty fields. -/
def fieldsAux (acc : List Char) : List Char → List (List Char)
  | [] => if acc.isEmpty then [] else [acc.reverse]
  | c :: cs =>
    if goIsSpace c then
      if acc.isEmpty then fieldsAux [] cs else acc.reverse :: fieldsAux [] cs
    else fieldsAux (c :: acc) cs

/-- Go `strings.Fields`. -/
def fields (s : List Char) : List (List Char) :=
  fieldsAux [] s

/-- Go `strings.TrimPrefix(part, "0x")`: drop a leading `"0x"` if present,
otherwise return the string unchanged. -/
def trimPrefix0x (t : List Char) : List Char :=
  match t with
  | c1 :: c2 :: rest => if c1 = '0' ∧ c2 = 'x' then rest else t
  | _ => t

/-- Body of the token loop in `parsePattern` (src/main.go lines 39-48): strip
an optional `0x` prefix, hex-decode, and require exactly one byte. -/
def parseToken (t : List Char) : Option Nat :=
  match decodeHex (trimPrefix0x t) with
  | some [b] => some b
  | _ => none

/-- The token loop of `parsePattern`: every token must parse, results kept in
order; the first failing token aborts the parse. -/
def parseTokens : List (List Char) → Option (List Nat)
  | [] => some []
  | t :: ts =>
    match parseToken t with
    | none => none
    | some b =>
      match parseTokens ts with
      | none => none
      | some bs => some (b :: bs)

/-- `parsePattern` (src/main.go lines 29-50): try the whole input as a
contiguous hex string; on failure fall back to whitespace-separated
one-byte tokens with optional `0x` prefixes. -/
def parsePattern (input : List Char) : Option (List Nat) :=
  match decodeHex input with
  | some bs => some bs
  | none => parseTokens (fields input)

/-- Lowercase hex digit character for a value `< 16` (used to state the
round-trip property of C8; this is the standard lowercase hex encoding the
spec refers to, not code of the repository). -/
def hexDigitChar (n : Nat) : Char :=
  if n < 10 then Char.ofNat (48 + n) else Char.ofNat (87 + n)

/-- Lowercase hex encoding of a byte sequence, two digits per byte. -/
def hexEncode : List Nat → List Char
  | [] => []
  | b :: bs => hexDigitChar (b / 16) :: hexDigitChar (b % 16) :: hexEncode bs

/-- A token that hex-decodes to exactly one byte (i.e. exactly two hex
digits), the shape required of every token in tokenized-byte mode. -/
def isByteTok (t : List Char) : Bool :=
  match decodeHex t with
  | some [_] => true
  | _ => false

/-- Optionally put a literal `0x` in front of a token. -/
def prefixTok (f : Bool) (t : List Char) : List Char :=
  if f then '0' :: 'x' :: t else t

/-- Join tokens with single spaces (builds the whitespace-separated input
text the user would type). -/
def joinTokens : List (List Char) → List Char
  | [] => []
  | [t] => t
  | t :: ts => t ++ ' ' :: joinTokens ts

/-- A token that is non-empty and contains no whitespace — exactly the
strings that `fields` reproduces verbatim. -/
def goodTok (t : List Char) : Prop :=
  t ≠ [] ∧ ∀ c ∈ t, goIsSpace c = false

/-- The chunking performed by the read loop in `main` (src/main.go lines
107-128) on a regular file: each `file.Read` fills the 4096-byte buffer
completely until fewer than 4096 bytes remain, and the final short read
returns exactly the remaining bytes. -/
def chunksOf4096 : List Nat → List (List Nat)
  | [] => []
  | a :: l => ((a :: l).take 4096) :: chunksOf4096 ((a :: l).drop 4096)
termination_by l => l.length
decreasing_by simp [List.length_drop]; omega

/-- The body of the read loop in `main`: search each chunk independently with
`findPattern`, report each within-chunk index plus the cumulative offset, then
advance the cumulative offset by the number of bytes actually read
(`offset += int64(n)`, src/main.go line 127). -/
def scanChunks (pattern : List Nat) : List (List Nat) → Nat → List Nat
  | [], _ => []
  | c :: cs, off => (findPattern c pattern).map (· + off) ++ scanChunks pattern cs (off + c.length)

/-- The whole per-file scan of `main`: offsets reported for a file whose
bytes are `file`, searched in successive 4096-byte chunks starting from
cumulative offset 0. -/
def scanFile (file pattern : List Nat) : List Nat :=
  scanChunks pattern (chunksOf4096 file) 0

/-- Outcome of one `file.Read` call as observed by the loop in `main`:
either `n` bytes with no (non-EOF) error, or a read error, in which case the
loop discards the buffer and breaks (src/main.go lines 111-115). -/
inductive ReadResult where
  | chunk (data : List Nat)
  | readError
deriving DecidableEq

/-- The read loop of `main` over an explicit stream of read outcomes: a read
error stops the scan of this file before the chunk is searched; a zero-byte
read (EOF) stops it normally; otherwise the chunk is searched and the
cumulative offset advanced by the bytes actually read. -/
def scanStream (pattern : List Nat) : List ReadResult → Nat → List Nat
  | [], _ => []
  | ReadResult.readError :: _, _ => []
  | ReadResult.chunk c :: rest, off =>
    if c.isEmpty then []
    else (findPattern c pattern).map (· + off) ++ scanStream pattern rest (off + c.length)

/-- The outer per-file loop of `main` (src/main.go lines 88-130): files are
processed sequentially and independently; each contributes the matches of its
own stream, tagged with the file's identifier. -/
def scanBatch (pattern : List Nat) : List (Nat × List ReadResult) → List (Nat × Nat)
  | [] => []
  | (name, s) :: rest =>
    ((scanStream pattern s 0).map (fun off => (name, off))) ++ scanBatch pattern rest

/-- Observable resource events of `main`'s per-file loop. -/
inductive FileEv where
  | openF (f : Nat)
  | scanF (f : Nat)
  | closeF (f : Nat)
deriving DecidableEq

/-- The open/scan events of the loop body, in loop order. -/
def openScanEvents : List Nat → List FileEv
  | [] => []
  | f :: rest => FileEv.openF f :: FileEv.scanF f :: openScanEvents rest

/-- Event trace of `main`'s per-file loop (src/main.go lines 88-130): each
iteration opens the file, registers `defer file.Close()` (line 104) and scans.
Go runs deferred calls only when the surrounding function (`main`) returns, in
LIFO order — not at the end of the loop iteration — so every close event
trails the whole batch, in reverse order of opening. -/
def mainEvents (files : List Nat) : List FileEv :=
  openScanEvents files ++ (files.reverse.map FileEv.closeF)

lemma mem_findPattern_iff (data pattern : List Nat) (i : Nat) :
    i ∈ findPattern data pattern ↔
      i < data.length + 1 - pattern.length ∧ (data.drop i).take pattern.length = pattern := by
  simp [findPattern, List.mem_filter, List.mem_range]

lemma findPattern_le (data pattern : List Nat) (i : Nat)
    (h : i ∈ findPattern data pattern) : i + pattern.length ≤ data.length := by
  rw [mem_findPattern_iff] at h
  omega

lemma findPattern_nil (pattern : List Nat) (h : pattern ≠ []) :
    findPattern [] pattern = [] := by
  have hp : 0 < pattern.length := List.length_pos.mpr h
  have : (1 : Nat) - pattern.length = 0 := by omega
  simp [findPattern, this]

/-- C1: for every data block `D` and non-empty pattern `P` with
`len(P) ≤ len(D)`, `findPattern D P` contains exactly the indices `i` with
`D[i : i+len(P)] = P`; overlapping occurrences are reported independently,
e.g. pattern `[0xAA, 0xAA]` against `[0xAA, 0xAA, 0xAA]` yields offsets
`0` and `1`. -/
theorem findPattern_exhaustive (D P : List Nat) (hne : P ≠ []) (hlen : P.length ≤ D.length) :
    (∀ i, i ∈ findPattern D P ↔ i + P.length ≤ D.length ∧ (D.drop i).take P.length = P)
    ∧ findPattern [170, 170, 170] [170, 170] = [0, 1] := by
  refine ⟨fun i => ?_, by decide⟩
  rw [mem_findPattern_iff]
  constructor
  · rintro ⟨h1, h2⟩
    exact ⟨by omega, h2⟩
  · rintro ⟨h1, h2⟩
    exact ⟨by omega, h2⟩

/-- Witness for C1 at `D = [170,170,170]`, `P = [170,170]`, `i = 0`. -/
theorem findPattern_exhaustive_witness :
    0 ∈ findPattern [170, 170, 170] [170, 170] :=
  ((findPattern_exhaustive [170, 170, 170] [170, 170] (by decide) (by decide)).1 0).mpr
    ⟨by decide, by decide⟩

/-- C10: the offsets returned by `findPattern` are strictly increasing, every
reported position `i` satisfies `i + len(P) ≤ len(D)`, and when the pattern is
longer than the data the result is empty. -/
theorem findPattern_sorted_bounded (D P : List Nat) :
    List.Pairwise (· < ·) (findPattern D P)
    ∧ (∀ i ∈ findPattern D P, i + P.length ≤ D.length)
    ∧ (D.length < P.length → findPattern D P = []) := by
  refine ⟨(List.pairwise_lt_range _).filter _, fun i hi => findPattern_le D P i hi, fun h => ?_⟩
  have : D.length + 1 - P.length = 0 := by omega
  simp [findPattern, this]

/-- Witness for C10's conditional part: a pattern longer than the data
produces an empty result. -/
theorem findPattern_sorted_bounded_witness : findPattern [1, 2] [1, 2, 3] = [] :=
  (findPattern_sorted_bounded [1, 2] [1, 2, 3]).2.2 (by decide)

/-- C5: `parsePattern` on the empty string succeeds in hex mode with a
zero-length pattern, and `findPattern` with a zero-length pattern against data
of length `n` reports every offset `0 ≤ i ≤ n`, i.e. `n + 1` matches including
offset `n`. -/
theorem parsePattern_empty_findPattern_empty :
    parsePattern [] = some []
    ∧ ∀ data : List Nat,
        (∀ i, i ∈ findPattern data [] ↔ i ≤ data.length)
        ∧ (findPattern data []).length = data.length + 1 := by
  have hfp : ∀ data : List Nat, findPattern data [] = List.range (data.length + 1) := by
    intro data
    rw [findPattern]
    simp
  refine ⟨rfl, fun data => ⟨fun i => ?_, ?_⟩⟩
  · rw [hfp, List.mem_range]
    omega
  · rw [hfp, List.length_range]

/-- C4 (refuting trace): with a two-file batch, `defer file.Close()` placed
inside the per-file loop of `main` closes nothing until `main` returns, so the
first file's close event comes after the second file's open event (indeed
after the whole batch), not before the next file is processed. -/
theorem mainEvents_defer_to_exit :
    mainEvents [0, 1] =
      [FileEv.openF 0, FileEv.scanF 0, FileEv.openF 1, FileEv.scanF 1,
       FileEv.closeF 1, FileEv.closeF 0]
    ∧ FileEv.openF 1 ∈ (mainEvents [0, 1]).take 3
    ∧ FileEv.closeF 0 ∉ (mainEvents [0, 1]).take 5 := by
  refine ⟨rfl, by decide, by decide⟩

lemma parseTokens_eq_none_iff (ts : List (List Char)) :
    parseTokens ts = none ↔ ∃ t ∈ ts, parseToken t = none := by
  induction ts with
  | nil => simp [parseTokens]
  | cons t ts ih =>
    cases ht : parseToken t with
    | none =>
      have hL : parseTokens (t :: ts) = none := by simp [parseTokens, ht]
      rw [hL]
      exact ⟨fun _ => ⟨t, List.mem_cons_self t ts, ht⟩, fun _ => rfl⟩
    | some b =>
      cases hts : parseTokens ts with
      | none =>
        have hL : parseTokens (t :: ts) = none := by simp [parseTokens, ht, hts]
        rw [hL]
        obtain ⟨t', ht', hf⟩ := ih.mp hts
        exact ⟨fun _ => ⟨t', List.mem_cons_of_mem t ht', hf⟩, fun _ => rfl⟩
      | some bs =>
        have hL : parseTokens (t :: ts) = some (b :: bs) := by simp [parseTokens, ht, hts]
        rw [hL]
        simp only [List.mem_cons]
        constructor
        · intro h
          cases h
        · rintro ⟨t', ht' | ht', hfail⟩
          · rw [ht', ht] at hfail
            cases hfail
          · have hcontra := ih.mpr ⟨t', ht', hfail⟩
            rw [hts] at hcontra
            cases hcontra

/-- C6: `parsePattern` fails (returns an error) exactly when the whole input
is not a valid contiguous even-length hex string and at least one
whitespace-separated token, after stripping an optional leading `0x`, does not
decode to exactly one byte; in particular `"zz"` fails in both modes.  (The
Lean model is a total function, so no crash is possible.) -/
theorem parsePattern_error_iff :
    (∀ input : List Char, parsePattern input = none ↔
      decodeHex input = none ∧ ∃ t ∈ fields input, parseToken t = none)
    ∧ parsePattern ['z', 'z'] = none := by
  refine ⟨fun input => ?_, by decide⟩
  cases h : decodeHex input with
  | some bs => simp [parsePattern, h]
  | none => simp [parsePattern, h, parseTokens_eq_none_iff]

lemma scanStream_error_trunc (p : List Nat) (pre : List (List Nat))
    (junk : List ReadResult) (off : Nat) :
    scanStream p (pre.map ReadResult.chunk ++ ReadResult.readError :: junk) off
      = scanStream p (pre.map ReadResult.chunk) off := by
  induction pre generalizing off with
  | nil => simp [scanStream]
  | cons c pre ih =>
    by_cases hc : c.isEmpty <;> simp [scanStream, hc, ih]

/-- C7: a non-EOF read error in one file's stream stops only that file's scan
(the chunks after the error are never searched, and neither is the erroring
read's buffer), while every subsequent file in the batch is scanned exactly as
it would be on its own, with its matches reported. -/
theorem scanBatch_error_isolation (P : List Nat) (f1 : Nat) (pre : List (List Nat))
    (junk : List ReadResult) (rest : List (Nat × List ReadResult)) :
    scanBatch P ((f1, pre.map ReadResult.chunk ++ ReadResult.readError :: junk) :: rest)
      = (scanStream P (pre.map ReadResult.chunk) 0).map (fun off => (f1, off))
        ++ scanBatch P rest := by
  simp [scanBatch, scanStream_error_trunc]

lemma hexDigitVal_hexDigitChar (n : Nat) (h : n < 16) :
    hexDigitVal (hexDigitChar n) = some n := by
  interval_cases n <;> decide

lemma decodeHex_hexEncode (bs : List Nat) (h : ∀ b ∈ bs, b < 256) :
    decodeHex (hexEncode bs) = some bs := by
  induction bs with
  | nil => rfl
  | cons b bs ih =>
    have hb : b < 256 := h b (List.mem_cons_self b bs)
    have h1 : hexDigitVal (hexDigitChar (b / 16)) = some (b / 16) :=
      hexDigitVal_hexDigitChar _ (by omega)
    have h2 : hexDigitVal (hexDigitChar (b % 16)) = some (b % 16) :=
      hexDigitVal_hexDigitChar _ (by omega)
    have ih' := ih (fun x hx => h x (List.mem_cons_of_mem b hx))
    simp [hexEncode, decodeHex, h1, h2, ih']
    omega

/-- C8: `parsePattern` applied to the lowercase hex encoding of any byte
sequence returns that same sequence (hex-mode round-trip); in particular
`"deadbeef"` parses to `[0xDE, 0xAD, 0xBE, 0xEF]`. -/
theorem parsePattern_hex_roundtrip (bs : List Nat) (h : ∀ b ∈ bs, b < 256) :
    parsePattern (hexEncode bs) = some bs
    ∧ parsePattern ['d', 'e', 'a', 'd', 'b', 'e', 'e', 'f'] = some [222, 173, 190, 239] := by
  refine ⟨?_, by decide⟩
  simp [parsePattern, decodeHex_hexEncode bs h]

/-- Witness for C8 at `bs = [0xDE, 0xAD, 0xBE, 0xEF]`, whose lowercase hex
encoding is the string `"deadbeef"`. -/
theorem parsePattern_hex_roundtrip_witness :
    hexEncode [222, 173, 190, 239] = ['d', 'e', 'a', 'd', 'b', 'e', 'e', 'f']
    ∧ parsePattern (hexEncode [222, 173, 190, 239]) = some [222, 173, 190, 239] :=
  ⟨by decide, (parsePattern_hex_roundtrip [222, 173, 190, 239] (by decide)).1⟩

lemma scanChunks_chunksOf_mem :
    ∀ (n : Nat) (l p : List Nat) (m i : Nat), p ≠ [] → l.length ≤ n →
      (i ∈ scanChunks p (chunksOf4096 l) (4096 * m) ↔
        ∃ k j, j ∈ findPattern ((l.drop (4096 * k)).take 4096) p ∧ i = 4096 * (m + k) + j) := by
  intro n
  induction n with
  | zero =>
    intro l p m i hp hl
    have hnil : l = [] := List.length_eq_zero.mp (Nat.le_zero.mp hl)
    subst hnil
    simp [chunksOf4096, scanChunks, findPattern_nil p hp]
  | succ n ih =>
    intro l p m i hp hl
    cases l with
    | nil => simp [chunksOf4096, scanChunks, findPattern_nil p hp]
    | cons a l' =>
      rw [chunksOf4096]
      simp only [scanChunks, List.mem_append, List.mem_map]
      by_cases hlen : 4096 ≤ (a :: l').length
      · have htk : ((a :: l').take 4096).length = 4096 := by
          rw [List.length_take]
          omega
        have hoff : 4096 * m + ((a :: l').take 4096).length = 4096 * (m + 1) := by
          rw [htk]
          ring
        have hdl : ((a :: l').drop 4096).length ≤ n := by
          have hc : (a :: l').length = l'.length + 1 := rfl
          rw [List.length_drop]
          omega
        have ih' := ih ((a :: l').drop 4096) p (m + 1) i hp hdl
        rw [hoff]
        constructor
        · rintro (⟨j, hj, rfl⟩ | h)
          · refine ⟨0, j, ?_, by omega⟩
            simpa using hj
          · rcases ih'.mp h with ⟨k, j, hj, hi⟩
            refine ⟨k + 1, j, ?_, by omega⟩
            rw [List.drop_drop] at hj
            rwa [show (4096 : Nat) + 4096 * k = 4096 * (k + 1) by ring] at hj
        · rintro ⟨k, j, hj, rfl⟩
          cases k with
          | zero =>
            left
            exact ⟨j, by simpa using hj, by omega⟩
          | succ k =>
            right
            refine ih'.mpr ⟨k, j, ?_, by omega⟩
            rwa [List.drop_drop, show (4096 : Nat) + 4096 * k = 4096 * (k + 1) by ring]
      · have htk : (a :: l').take 4096 = a :: l' := List.take_of_length_le (by omega)
        have hdr : (a :: l').drop 4096 = [] := List.drop_eq_nil_of_le (by omega)
        rw [htk, hdr]
        simp only [chunksOf4096, scanChunks, List.not_mem_nil, or_false]
        constructor
        · rintro ⟨j, hj, rfl⟩
          refine ⟨0, j, ?_, by omega⟩
          rw [Nat.mul_zero, List.drop_zero, htk]
          exact hj
        · rintro ⟨k, j, hj, rfl⟩
          cases k with
          | zero =>
            rw [Nat.mul_zero, List.drop_zero, htk] at hj
            exact ⟨j, hj, by omega⟩
          | succ k =>
            rw [List.drop_eq_nil_of_le (by simp only [List.length_cons] at hlen ⊢; omega)] at hj
            rw [List.take_nil, findPattern_nil p hp] at hj
            cases hj

/-- C3: an offset is reported by the per-file scan exactly when it equals the
cumulative bytes consumed by the previous (full, 4096-byte) chunks plus a
within-chunk match index; in particular a match at chunk-relative index `j`
inside the second chunk of a file whose first read returned 4096 bytes is
reported at absolute offset `4096 + j`. -/
theorem scanFile_offsets (file P : List Nat) (hP : P ≠ []) :
    (∀ i, i ∈ scanFile file P ↔
        ∃ k j, j ∈ findPattern ((file.drop (4096 * k)).take 4096) P ∧ i = 4096 * k + j)
    ∧ (∀ j, j ∈ findPattern ((file.drop 4096).take 4096) P → 4096 + j ∈ scanFile file P) := by
  have hmain : ∀ i, i ∈ scanFile file P ↔
      ∃ k j, j ∈ findPattern ((file.drop (4096 * k)).take 4096) P ∧ i = 4096 * k + j := by
    intro i
    have h := scanChunks_chunksOf_mem file.length file P 0 i hP le_rfl
    rw [show (4096 * 0 : Nat) = 0 by ring] at h
    simp only [Nat.zero_add] at h
    simpa [scanFile] using h
  refine ⟨hmain, fun j hj => ?_⟩
  refine (hmain (4096 + j)).mpr ⟨1, j, ?_, by ring⟩
  simpa using hj

/-- Witness for C3 at `file = [5,7,5]`, `P = [7]`: the match at index 1 in
the first chunk is reported at absolute offset `4096*0 + 1 = 1`. -/
theorem scanFile_offsets_witness : 1 ∈ scanFile [5, 7, 5] [7] :=
  ((scanFile_offsets [5, 7, 5] [7] (by decide)).1 1).mpr ⟨0, 1, by decide, by decide⟩

/-- C2: any index straddling a 4096-byte chunk boundary (it starts before
byte `4096*k` and ends after it) is never reported by the per-file scan, since
each chunk is searched independently with no carry-over. -/
theorem scanFile_misses_boundary (file P : List Nat) (i k : Nat)
    (h1 : i < 4096 * k) (h2 : 4096 * k < i + P.length) :
    i ∉ scanFile file P := by
  intro hi
  have hP : P ≠ [] := by
    intro h
    rw [h] at h2
    simp only [List.length_nil, Nat.add_zero] at h2
    omega
  have h := scanChunks_chunksOf_mem file.length file P 0 i hP le_rfl
  rw [show (4096 * 0 : Nat) = 0 by ring] at h
  simp only [Nat.zero_add] at h
  obtain ⟨k', j, hj, rfl⟩ := h.mp (by simpa [scanFile] using hi)
  have hb : j + P.length ≤ ((file.drop (4096 * k')).take 4096).length :=
    findPattern_le _ _ _ hj
  have hb2 : ((file.drop (4096 * k')).take 4096).length ≤ 4096 := by
    rw [List.length_take]
    omega
  omega

/-- Witness for C2: in an 8192-byte file of `0xAA` bytes, the occurrence of
`[0xAA, 0xAA]` starting at 4095 straddles the first chunk boundary and is not
reported. -/
theorem scanFile_misses_boundary_witness :
    4095 ∉ scanFile (List.replicate 8192 170) [170, 170] :=
  scanFile_misses_boundary _ _ 4095 1 (by norm_num) (by norm_num)

lemma decodeHex_some_all_hex : ∀ (l : List Char) (bs : List Nat), decodeHex l = some bs →
    ∀ c ∈ l, (hexDigitVal c).isSome
  | [], _, _, c, hc => absurd hc (List.not_mem_nil c)
  | [_], _, h, _, _ => by simp [decodeHex] at h
  | c1 :: c2 :: rest, bs, h, c, hc => by
    rw [decodeHex] at h
    cases h1 : hexDigitVal c1 with
    | none => rw [h1] at h; simp at h
    | some hi =>
      rw [h1] at h
      cases h2 : hexDigitVal c2 with
      | none => rw [h2] at h; simp at h
      | some lo =>
        rw [h2] at h
        cases h3 : decodeHex rest with
        | none => rw [h3] at h; simp at h
        | some bs' =>
          rcases List.mem_cons.mp hc with rfl | hc'
          · simp [h1]
          · rcases List.mem_cons.mp hc' with rfl | hc''
            · simp [h2]
            · exact decodeHex_some_all_hex rest bs' h3 c hc''

lemma decodeHex_eq_some_nil (l : List Char) (h : decodeHex l = some []) : l = [] := by
  cases l with
  | nil => rfl
  | cons c1 t =>
    cases t with
    | nil => simp [decodeHex] at h
    | cons c2 rest =>
      rw [decodeHex] at h
      cases h1 : hexDigitVal c1 <;> rw [h1] at h
      · simp at h
      · cases h2 : hexDigitVal c2 <;> rw [h2] at h
        · simp at h
        · cases h3 : decodeHex rest <;> rw [h3] at h <;> simp at h

lemma decodeHex_byte_shape (t : List Char) (b : Nat) (h : decodeHex t = some [b]) :
    ∃ c1 c2, t = [c1, c2] ∧ (hexDigitVal c1).isSome ∧ (hexDigitVal c2).isSome := by
  cases t with
  | nil => simp [decodeHex] at h
  | cons c1 t' =>
    cases t' with
    | nil => simp [decodeHex] at h
    | cons c2 rest =>
      rw [decodeHex] at h
      cases h1 : hexDigitVal c1 <;> rw [h1] at h
      · simp at h
      · cases h2 : hexDigitVal c2 <;> rw [h2] at h
        · simp at h
        · cases h3 : decodeHex rest <;> rw [h3] at h
          · simp at h
          · simp only [Option.some.injEq, List.cons.injEq] at h
            have hrest : rest = [] := by
              apply decodeHex_eq_some_nil
              rw [h3, h.2]
            subst hrest
            exact ⟨c1, c2, rfl, by simp [h1], by simp [h2]⟩

lemma isByteTok_shape (t : List Char) (h : isByteTok t = true) :
    ∃ c1 c2 b, t = [c1, c2] ∧ decodeHex t = some [b]
      ∧ (hexDigitVal c1).isSome ∧ (hexDigitVal c2).isSome := by
  rw [isByteTok] at h
  cases hd : decodeHex t with
  | none => rw [hd] at h; simp at h
  | some bs =>
    rw [hd] at h
    cases bs with
    | nil => simp at h
    | cons b bs' =>
      cases bs' with
      | nil =>
        obtain ⟨c1, c2, ht, h1, h2⟩ := decodeHex_byte_shape t b hd
        exact ⟨c1, c2, b, ht, rfl, h1, h2⟩
      | cons _ _ => simp at h

lemma goIsSpace_hexDigitVal (c : Char) (h : goIsSpace c = true) : hexDigitVal c = none := by
  rw [goIsSpace, decide_eq_true_eq] at h
  rw [hexDigitVal]
  repeat' split
  all_goals first | rfl | (exfalso; omega)

lemma hexDigitVal_not_space (c : Char) (h : (hexDigitVal c).isSome) : goIsSpace c = false := by
  cases hsp : goIsSpace c with
  | false => rfl
  | true =>
    rw [goIsSpace_hexDigitVal c hsp] at h
    simp at h

lemma isByteTok_goodTok (t : List Char) (h : isByteTok t = true) : goodTok t := by
  obtain ⟨c1, c2, b, rfl, _, h1, h2⟩ := isByteTok_shape t h
  refine ⟨by simp, ?_⟩
  intro c hc
  rcases List.mem_cons.mp hc with rfl | hc'
  · exact hexDigitVal_not_space c h1
  · rcases List.mem_cons.mp hc' with rfl | hc''
    · exact hexDigitVal_not_space c h2
    · cases hc''

lemma goodTok_prefixTok (f : Bool) (t : List Char) (h : goodTok t) : goodTok (prefixTok f t) := by
  cases f with
  | false => simpa [prefixTok] using h
  | true =>
    refine ⟨by simp [prefixTok], ?_⟩
    intro c hc
    simp only [prefixTok, if_pos] at hc
    rcases List.mem_cons.mp hc with rfl | hc'
    · rfl
    · rcases List.mem_cons.mp hc' with rfl | hc''
      · rfl
      · exact h.2 c hc''

lemma fieldsAux_nonspace_append (t : List Char) : ∀ (acc l : List Char),
    (∀ c ∈ t, goIsSpace c = false) → fieldsAux acc (t ++ l) = fieldsAux (t.reverse ++ acc) l := by
  induction t with
  | nil => intro acc l _; simp
  | cons c t ih =>
    intro acc l h
    have hc : goIsSpace c = false := h c (List.mem_cons_self c t)
    simp only [List.cons_append, fieldsAux, hc, Bool.false_eq_true, if_false, List.append_eq]
    rw [ih (c :: acc) l (fun c' hc' => h c' (List.mem_cons_of_mem c hc'))]
    simp [List.append_assoc]

lemma reverse_isEmpty_false (t : List Char) (h : t ≠ []) : t.reverse.isEmpty = false := by
  cases hr : t.reverse with
  | nil => exact absurd (List.reverse_eq_nil_iff.mp hr) h
  | cons a t' => rfl

lemma fields_joinTokens : ∀ (toks : List (List Char)), (∀ t ∈ toks, goodTok t) →
    fields (joinTokens toks) = toks := by
  intro toks
  induction toks with
  | nil => intro _; rfl
  | cons t ts ih =>
    intro h
    obtain ⟨hne', hnsp⟩ := h t (List.mem_cons_self t ts)
    cases ts with
    | nil =>
      show fieldsAux [] (joinTokens [t]) = [t]
      calc fieldsAux [] (joinTokens [t]) = fieldsAux [] (t ++ []) := by rw [List.append_nil]; rfl
        _ = fieldsAux (t.reverse ++ []) [] := fieldsAux_nonspace_append t [] [] hnsp
        _ = [t] := by
            rw [List.append_nil, fieldsAux, reverse_isEmpty_false t hne']
            simp
    | cons t2 ts' =>
      have hjoin : joinTokens (t :: t2 :: ts') = t ++ ' ' :: joinTokens (t2 :: ts') := rfl
      show fieldsAux [] (joinTokens (t :: t2 :: ts')) = t :: t2 :: ts'
      rw [hjoin, fieldsAux_nonspace_append t [] _ hnsp, List.append_nil]
      rw [fieldsAux, show goIsSpace ' ' = true from rfl]
      rw [if_pos rfl, reverse_isEmpty_false t hne']
      simp only [Bool.false_eq_true, if_false, List.reverse_reverse]
      have hih := ih (fun t' ht' => h t' (List.mem_cons_of_mem t ht'))
      rw [fields] at hih
      rw [hih]

lemma trimPrefix0x_two (c1 c2 : Char) (h : (hexDigitVal c2).isSome) :
    trimPrefix0x [c1, c2] = [c1, c2] := by
  simp only [trimPrefix0x]
  rw [if_neg]
  rintro ⟨rfl, rfl⟩
  simp [hexDigitVal] at h

lemma parseToken_prefixTok (t : List Char) (h : isByteTok t = true) (f : Bool) :
    parseToken (prefixTok f t) = parseToken t := by
  obtain ⟨c1, c2, b, rfl, hd, h1, h2⟩ := isByteTok_shape t h
  cases f with
  | false => rfl
  | true =>
    have htrim1 : trimPrefix0x ['0', 'x', c1, c2] = [c1, c2] := by
      simp [trimPrefix0x]
    have htrim2 : trimPrefix0x [c1, c2] = [c1, c2] := trimPrefix0x_two c1 c2 h2
    simp only [prefixTok, if_pos]
    rw [parseToken, parseToken, htrim2]
    show (match decodeHex (trimPrefix0x ['0', 'x', c1, c2]) with
          | some [b] => some b
          | _ => none) = _
    rw [htrim1]

lemma parseTokens_prefixToks (flags : List Bool) : ∀ (toks : List (List Char)),
    flags.length = toks.length → (∀ t ∈ toks, isByteTok t = true) →
    parseTokens (List.zipWith prefixTok flags toks) = parseTokens toks := by
  induction flags with
  | nil =>
    intro toks hl _
    have : toks = [] := List.length_eq_zero.mp hl.symm
    subst this
    rfl
  | cons f fs ih =>
    intro toks hl h
    cases toks with
    | nil => rfl
    | cons t ts =>
      simp only [List.zipWith]
      rw [parseTokens, parseTokens]
      rw [parseToken_prefixTok t (h t (List.mem_cons_self t ts)) f]
      rw [ih ts (by simpa using hl) (fun t' ht' => h t' (List.mem_cons_of_mem t ht'))]

lemma goodTok_mem_zipWith : ∀ (flags : List Bool) (toks : List (List Char)),
    (∀ t ∈ toks, isByteTok t = true) →
    ∀ t' ∈ List.zipWith prefixTok flags toks, goodTok t' := by
  intro flags
  induction flags with
  | nil =>
    intro toks _ t' ht'
    simp at ht'
  | cons f fs ih =>
    intro toks h t' ht'
    cases toks with
    | nil => simp at ht'
    | cons t ts =>
      simp only [List.zipWith, List.mem_cons] at ht'
      rcases ht' with rfl | ht'
      · exact goodTok_prefixTok f t (isByteTok_goodTok t (h t (List.mem_cons_self t ts)))
      · exact ih ts (fun x hx => h x (List.mem_cons_of_mem t hx)) t' ht'

lemma space_mem_joinTokens (t1 t2 : List Char) (ts : List (List Char)) :
    ' ' ∈ joinTokens (t1 :: t2 :: ts) := by
  rw [show joinTokens (t1 :: t2 :: ts) = t1 ++ ' ' :: joinTokens (t2 :: ts) from rfl]
  exact List.mem_append_right _ (List.mem_cons_self _ _)

lemma decodeHex_none_of_space (l : List Char) (h : ' ' ∈ l) : decodeHex l = none := by
  cases hd : decodeHex l with
  | none => rfl
  | some bs =>
    have hx := decodeHex_some_all_hex l bs hd ' ' h
    exact absurd hx (by decide)

/-- C9: tokenized-byte mode is insensitive to optional per-token `0x`
prefixes: for any whitespace-joined list of two-hex-digit byte tokens,
prefixing any subset of the tokens with `0x` leaves the parsed byte sequence
unchanged; in particular `"0xDE 0xAD 0xBE 0xEF"` and `"DE AD BE EF"` both
parse to `[0xDE, 0xAD, 0xBE, 0xEF]`. -/
theorem parsePattern_prefix_insensitive (toks : List (List Char)) (flags : List Bool)
    (hlen : flags.length = toks.length) (htoks : ∀ t ∈ toks, isByteTok t = true) :
    parsePattern (joinTokens (List.zipWith prefixTok flags toks)) = parsePattern (joinTokens toks)
    ∧ parsePattern ['0', 'x', 'D', 'E', ' ', '0', 'x', 'A', 'D', ' ',
                    '0', 'x', 'B', 'E', ' ', '0', 'x', 'E', 'F'] = some [222, 173, 190, 239]
    ∧ parsePattern ['D', 'E', ' ', 'A', 'D', ' ', 'B', 'E', ' ', 'E', 'F']
        = some [222, 173, 190, 239] := by
  refine ⟨?_, by decide, by decide⟩
  cases toks with
  | nil =>
    have hf : flags = [] := List.length_eq_zero.mp (by simpa using hlen)
    subst hf
    rfl
  | cons t ts =>
    obtain ⟨f, fs, rfl⟩ : ∃ f fs, flags = f :: fs := by
      cases flags with
      | nil => simp at hlen
      | cons f fs => exact ⟨f, fs, rfl⟩
    cases ts with
    | nil =>
      have hbt := htoks t (List.mem_cons_self t [])
      obtain ⟨c1, c2, b, rfl, hd, h1, h2⟩ := isByteTok_shape t hbt
      have hz : List.zipWith prefixTok (f :: fs) [[c1, c2]] = [prefixTok f [c1, c2]] := by
        simp [List.zipWith]
      rw [hz]
      cases f with
      | false => rfl
      | true =>
        have hdx : decodeHex ('0' :: 'x' :: [c1, c2]) = none := rfl
        have hgt : goodTok ['0', 'x', c1, c2] :=
          goodTok_prefixTok true [c1, c2] (isByteTok_goodTok [c1, c2] hbt)
        have hfields : fields ['0', 'x', c1, c2] = [['0', 'x', c1, c2]] := by
          have hj := fields_joinTokens [['0', 'x', c1, c2]]
            (by intro t' ht'; rw [List.mem_singleton] at ht'; subst ht'; exact hgt)
          simpa [joinTokens] using hj
        show parsePattern ['0', 'x', c1, c2] = parsePattern [c1, c2]
        have hR : parsePattern [c1, c2] = some [b] := by
          simp [parsePattern, hd]
        have hL : parsePattern ['0', 'x', c1, c2] = some [b] := by
          simp [parsePattern, hdx, hfields, parseTokens, parseToken, trimPrefix0x, hd]
        rw [hL, hR]
    | cons t2 ts' =>
      obtain ⟨f2, fs', rfl⟩ : ∃ a b, fs = a :: b := by
        cases fs with
        | nil => simp at hlen
        | cons a b => exact ⟨a, b, rfl⟩
      have hgood : ∀ x ∈ t :: t2 :: ts', goodTok x :=
        fun x hx => isByteTok_goodTok x (htoks x hx)
      have hz : List.zipWith prefixTok (f :: f2 :: fs') (t :: t2 :: ts')
          = prefixTok f t :: prefixTok f2 t2 :: List.zipWith prefixTok fs' ts' := by
        simp [List.zipWith]
      rw [hz]
      have hgoodz : ∀ x ∈ prefixTok f t :: prefixTok f2 t2 :: List.zipWith prefixTok fs' ts',
          goodTok x := by
        have hgz := goodTok_mem_zipWith (f :: f2 :: fs') (t :: t2 :: ts') htoks
        rw [hz] at hgz
        exact hgz
      have hs1 : decodeHex (joinTokens (t :: t2 :: ts')) = none :=
        decodeHex_none_of_space _ (space_mem_joinTokens _ _ _)
      have hs2 : decodeHex (joinTokens
          (prefixTok f t :: prefixTok f2 t2 :: List.zipWith prefixTok fs' ts')) = none :=
        decodeHex_none_of_space _ (space_mem_joinTokens _ _ _)
      have hf1 : fields (joinTokens (t :: t2 :: ts')) = t :: t2 :: ts' :=
        fields_joinTokens _ hgood
      have hf2 : fields (joinTokens
          (prefixTok f t :: prefixTok f2 t2 :: List.zipWith prefixTok fs' ts'))
          = prefixTok f t :: prefixTok f2 t2 :: List.zipWith prefixTok fs' ts' :=
        fields_joinTokens _ hgoodz
      simp only [parsePattern, hs1, hs2, hf1, hf2]
      have hpp := parseTokens_prefixToks (f :: f2 :: fs') (t :: t2 :: ts') (by simpa using hlen) htoks
      rw [hz] at hpp
      exact hpp

/-- Witness for C9 at `toks = [["D","E"], ["A","D"]]`, prefixing only the
first token. -/
theorem parsePattern_prefix_insensitive_witness :
    parsePattern (joinTokens (List.zipWith prefixTok [true, false] [['D', 'E'], ['A', 'D']]))
      = parsePattern (joinTokens [['D', 'E'], ['A', 'D']]) :=
  (parsePattern_prefix_insensitive [['D', 'E'], ['A', 'D']] [true, false] rfl (by decide)).1
